import Mathlib

/-!
Verification of the diff + risk-classification core of the
impact-platform JSON/YAML CLI (v2 entry point, the variant the spec
declares canonical), together with its document loader, history loader
and history analyzer.

Documents are JSON-like trees.  JSON numbers are modelled as integers
(every numeric value exercised by the specification is integral);
string escaping inside the JSON serializer is elided, as no claim
depends on escape sequences.  JavaScript exceptions are modelled as
`Option`/`Except` failures.  String primitives are implemented over
character lists so that every definition evaluates inside the kernel.
-/

/-- A JSON/YAML document value, as produced by `JSON.parse` or the
repository's `parseYAML`: null, boolean, number, string, array, or
object (an insertion-ordered list of key/value fields, mirroring the
key ordering of JavaScript objects). -/
inductive Value where
  | vnull : Value
  | vbool (b : Bool) : Value
  | vnum (n : Int) : Value
  | vstr (s : String) : Value
  | varr (items : List Value) : Value
  | vobj (fields : List (String × Value)) : Value

mutual

/-- Structural size of a value, used as recursion fuel for the
depth-bounded functions below. -/
def valueSize : Value → Nat
  | .vnull => 1
  | .vbool _ => 1
  | .vnum _ => 1
  | .vstr _ => 1
  | .varr xs => 1 + valueListSize xs
  | .vobj fs => 1 + fieldsSize fs

/-- Structural size of a value list. -/
def valueListSize : List Value → Nat
  | [] => 1
  | v :: rest => 1 + valueSize v + valueListSize rest

/-- Structural size of an object field list. -/
def fieldsSize : List (String × Value) → Nat
  | [] => 1
  | (_, v) :: rest => 2 + valueSize v + fieldsSize rest

end

mutual

/-- Structural (order-sensitive) equality test on values. -/
def valueBeq : Value → Value → Bool
  | .vnull, .vnull => true
  | .vbool a, .vbool b => a = b
  | .vnum a, .vnum b => a = b
  | .vstr a, .vstr b => a = b
  | .varr a, .varr b => valueListBeq a b
  | .vobj a, .vobj b => fieldsBeq a b
  | _, _ => false

/-- Elementwise equality test on value lists. -/
def valueListBeq : List Value → List Value → Bool
  | [], [] => true
  | a :: as, b :: bs => valueBeq a b && valueListBeq as bs
  | _, _ => false

/-- Elementwise equality test on field lists (keys and values, in
order). -/
def fieldsBeq : List (String × Value) → List (String × Value) → Bool
  | [], [] => true
  | (k, v) :: as, (k2, v2) :: bs => k = k2 && valueBeq v v2 && fieldsBeq as bs
  | _, _ => false

end

/-- First-match association-list lookup, modelling JavaScript property
access `obj[key]` on an object's fields. -/
def strLookup : List (String × Value) → String → Option Value
  | [], _ => none
  | (k, v) :: rest, key => if k = key then some v else strLookup rest key

/-- Modelling the JavaScript `key in obj` membership test. -/
def hasKey (l : List (String × Value)) (key : String) : Bool :=
  l.any (fun e => e.1 = key)

/-- First-occurrence deduplication, modelling the iteration order of a
JavaScript `Set` built from a concatenated key list. -/
def dedupFirst (seen : List String) : List String → List String
  | [] => []
  | k :: rest =>
    if k ∈ seen then dedupFirst seen rest else k :: dedupFirst (k :: seen) rest

/-- `new Set([...Object.keys(objA), ...Object.keys(objB)])` as an
ordered key list. -/
def unionKeys (a b : List (String × Value)) : List String :=
  dedupFirst [] (a.map Prod.fst ++ b.map Prod.fst)

/-- Whether the second list is a prefix of the first. -/
def listStartsWith : List Char → List Char → Bool
  | _, [] => true
  | [], _ :: _ => false
  | a :: as, b :: bs => a = b && listStartsWith as bs

/-- Whether `sub` occurs contiguously inside `l`. -/
def listContainsSub : List Char → List Char → Bool
  | [], sub => sub.isEmpty
  | l@(_ :: t), sub => listStartsWith l sub || listContainsSub t sub

/-- Substring test on strings, modelling an unanchored regex test such
as `/timeout/` on an already lower-cased key. -/
def containsSub (s sub : String) : Bool :=
  listContainsSub s.data sub.data

/-- ASCII lower-casing, modelling the case-insensitive `/i` regex flag
and `.toLowerCase()` on the ASCII keys and extensions in scope. -/
def toLowerStr (s : String) : String :=
  String.mk (s.data.map Char.toLower)

/-- Whitespace trim at both ends, modelling `String.prototype.trim`. -/
def jsTrim (s : String) : String :=
  String.mk (((s.data.dropWhile Char.isWhitespace).reverse.dropWhile Char.isWhitespace).reverse)

/-- Drop leading whitespace, modelling the greedy `\s*` between the
colon and the value group in the YAML line regex. -/
def dropLeadingWs (s : String) : String :=
  String.mk (s.data.dropWhile Char.isWhitespace)

/-- Split on a single separator character, modelling
`String.prototype.split` with a one-character separator. -/
def splitChar (sep : Char) : List Char → List (List Char)
  | [] => [[]]
  | c :: rest =>
    let r := splitChar sep rest
    if c = sep then [] :: r
    else
      match r with
      | [] => [[c]]
      | h :: t => (c :: h) :: t

/-- String-level split on one separator character. -/
def strSplitChar (sep : Char) (s : String) : List String :=
  (splitChar sep s.data).map String.mk

/-- `change.path.split('.').pop()`: the last segment of a dotted
path. -/
def lastSegment (path : String) : String :=
  (strSplitChar '.' path).getLastD ""

/-- Prefix test on strings (anchored `^pattern` regex match against a
literal alternative). -/
def strStartsWith (s p : String) : Bool :=
  listStartsWith s.data p.data

/-- Suffix test on strings. -/
def strEndsWith (s p : String) : Bool :=
  listStartsWith s.data.reverse p.data.reverse

/-- `typeof v` in JavaScript (note that `typeof null` and `typeof []`
are both `"object"`). -/
def jsTypeof : Value → String
  | .vnull => "object"
  | .vbool _ => "boolean"
  | .vnum _ => "number"
  | .vstr _ => "string"
  | .varr _ => "object"
  | .vobj _ => "object"

/-- `Number(s)` for a string, restricted to the integer-literal subset
exercised by the specification: surrounding whitespace is trimmed, the
empty string coerces to `0`, an optional sign followed by decimal
digits parses as an integer, and anything else is `NaN` (`none`).
Fractional, exponent and hexadecimal literals are outside the modelled
subset. -/
def strToNumber (s : String) : Option Int :=
  let t := jsTrim s
  if t = "" then some 0
  else
    let (sign, digits) :=
      if strStartsWith t "-" then ((-1 : Int), t.drop 1)
      else if strStartsWith t "+" then ((1 : Int), t.drop 1)
      else ((1 : Int), t)
    if digits ≠ "" ∧ digits.data.all Char.isDigit then
      some (sign * (digits.data.foldl (fun acc c => acc * 10 + (c.toNat - 48)) 0 : Nat))
    else none

/-- `Number(v)` for a document value: numbers pass through, strings are
parsed, booleans give 1/0, `null` gives 0, an empty or scalar singleton
array coerces through its joined string form, and objects or longer
arrays are `NaN` (`none`). -/
def jsToNumber : Value → Option Int
  | .vnum n => some n
  | .vstr s => strToNumber s
  | .vbool true => some 1
  | .vbool false => some 0
  | .vnull => some 0
  | .varr [] => some 0
  | .varr [.vnum n] => some n
  | .varr [.vstr s] => strToNumber s
  | .varr [.vnull] => some 0
  | .varr _ => none
  | .vobj _ => none

/-- `String(v)` (JavaScript string coercion), fuel-bounded on depth;
used only to build presentation text. -/
def jsToStringFuel : Nat → Value → String
  | 0, _ => ""
  | fuel + 1, v =>
    match v with
    | .vnull => "null"
    | .vbool true => "true"
    | .vbool false => "false"
    | .vnum n => toString n
    | .vstr s => s
    | .varr xs => String.intercalate "," (xs.map (jsToStringFuel fuel))
    | .vobj _ => "[object Object]"

/-- `String(v)`; the fuel `valueSize v` exceeds the tree depth. -/
def jsToString (v : Value) : String :=
  jsToStringFuel (valueSize v) v

/-- `JSON.stringify(v)`, fuel-bounded on depth.  String escaping is
elided: no claim in scope depends on serialized escape sequences. -/
def jsonStringifyFuel : Nat → Value → String
  | 0, _ => ""
  | fuel + 1, v =>
    match v with
    | .vnull => "null"
    | .vbool true => "true"
    | .vbool false => "false"
    | .vnum n => toString n
    | .vstr s => "\"" ++ s ++ "\""
    | .varr xs =>
      "[" ++ String.intercalate "," (xs.map (jsonStringifyFuel fuel)) ++ "]"
    | .vobj fs =>
      "\x7b" ++
        String.intercalate ","
          (fs.map (fun kv => "\"" ++ kv.1 ++ "\":" ++ jsonStringifyFuel fuel kv.2)) ++
        "\x7d"

/-- `JSON.stringify(v)`; the fuel `valueSize v` exceeds the tree
depth. -/
def jsonStringify (v : Value) : String :=
  jsonStringifyFuel (valueSize v) v

/-- One structural difference, as pushed by `compareObjects`:
`{type, path, value}` for additions and removals,
`{type, path, oldValue, newValue}` for modifications. -/
inductive Change where
  | added (path : String) (value : Value) : Change
  | removed (path : String) (value : Value) : Change
  | modified (path : String) (oldValue newValue : Value) : Change

/-- The `path` field of a change record. -/
def Change.path : Change → String
  | .added p _ => p
  | .removed p _ => p
  | .modified p _ _ => p

/-- The `type` field of a change record, as the string stored by the
source. -/
def changeKindStr : Change → String
  | .added _ _ => "added"
  | .removed _ _ => "removed"
  | .modified _ _ _ => "modified"

/-- Whether a change record has kind `removed`. -/
def isRemovedKind : Change → Bool
  | .removed _ _ => true
  | _ => false

/-- The per-key body of the `compareObjects` loop, abstracted over the
recursive call: a key missing from `objA` is Added, a key missing from
`objB` is Removed, two non-null non-array objects recurse under the
composed path, and otherwise the two values are Modified exactly when
their JSON serializations differ. -/
def diffKey (recur : List (String × Value) → List (String × Value) → String → List Change)
    (a b : List (String × Value)) (path key : String) : List Change :=
  let currentPath := if path = "" then key else path ++ "." ++ key
  if hasKey a key = false then
    [Change.added currentPath ((strLookup b key).getD .vnull)]
  else if hasKey b key = false then
    [Change.removed currentPath ((strLookup a key).getD .vnull)]
  else
    match (strLookup a key).getD .vnull, (strLookup b key).getD .vnull with
    | .vobj fa, .vobj fb => recur fa fb currentPath
    | va, vb =>
      if jsonStringify va ≠ jsonStringify vb then
        [Change.modified currentPath va vb]
      else []

/-- The body of `compareObjects`, fuel-bounded on nesting depth: walk
the set-union of the two key lists and apply the per-key body to each
key in order. -/
def compareObjectsFuel : Nat → List (String × Value) → List (String × Value) → String → List Change
  | 0, _, _, _ => []
  | fuel + 1, a, b, path =>
    (unionKeys a b).flatMap (diffKey (compareObjectsFuel fuel) a b path)

/-- `compareObjects(objA, objB)`: the structural diff of two document
mappings.  The fuel strictly exceeds the maximal nesting depth of
either argument, so the bounded recursion never cuts off (see
`compareObjectsFuel_stable`). -/
def compareObjects (a b : List (String × Value)) : List Change :=
  compareObjectsFuel (fieldsSize a + fieldsSize b) a b ""

/-- The four risk tiers. -/
inductive Level where
  | low
  | medium
  | high
  | critical
  deriving DecidableEq

/-- Numeric rank of a risk tier (`low` lowest). -/
def Level.rank : Level → Nat
  | .low => 0
  | .medium => 1
  | .high => 2
  | .critical => 3

/-- The CRITICAL_PATTERNS tier: credential-like prefixes, database
connection prefixes, and exact enabled/active/disabled flags
(case-insensitive). -/
def matchesCriticalPattern (lastKey : String) : Bool :=
  let l := toLowerStr lastKey
  (["api_key", "api-key", "apikey", "secret", "password", "token", "auth"].any
      fun p => strStartsWith l p)
  || (["database", "db"].any fun d =>
        ["_", ".", "-"].any fun sep =>
          ["host", "url", "connection"].any fun f => strStartsWith l (d ++ sep ++ f))
  || ["enable", "enabled", "active", "disable", "disabled"].contains l

/-- The HIGH_PATTERNS tier: capacity/limit substrings and exact
port/host/endpoint/url names (case-insensitive). -/
def matchesHighPattern (lastKey : String) : Bool :=
  let l := toLowerStr lastKey
  containsSub l "timeout" || containsSub l "limit" || containsSub l "max" ||
  containsSub l "min" || containsSub l "threshold" || containsSub l "retry" ||
  ["port", "host", "endpoint", "url"].contains l

/-- The MEDIUM_PATTERNS tier: descriptive metadata names
(case-insensitive exact matches). -/
def matchesMediumPattern (lastKey : String) : Bool :=
  ["name", "type", "version", "format", "encoding", "locale", "timezone"].contains
    (toLowerStr lastKey)

/-- The `/timeout/i` test used by the timeout-decrease rule. -/
def matchesTimeout (lastKey : String) : Bool :=
  containsSub (toLowerStr lastKey) "timeout"

/-- The `/^(enabled?|active)$/i` test used by the activity-flag rule. -/
def matchesEnabledActive (lastKey : String) : Bool :=
  ["enable", "enabled", "active"].contains (toLowerStr lastKey)

/-- Baseline tier of a field, from the first matching pattern tier. -/
def baselineLevel (lastKey : String) : Level :=
  if matchesCriticalPattern lastKey then .critical
  else if matchesHighPattern lastKey then .high
  else if matchesMediumPattern lastKey then .medium
  else .low

/-- Category assigned together with the baseline tier. -/
def baselineCategory (lastKey : String) : String :=
  if matchesCriticalPattern lastKey then "security"
  else if matchesHighPattern lastKey then "performance"
  else if matchesMediumPattern lastKey then "configuration"
  else "general"

/-- An impact record as pushed by `analyzeImpactLocal`. -/
structure Impact where
  level : Level
  path : String
  title : String
  description : String
  recommendation : String
  changeType : String
  category : String

/-- Classification of a single change record by the loop body of
`analyzeImpactLocal` (v2): baseline tier from the last path segment,
then the removal floor, the timeout-decrease rule, the activity-flag
rule and the type-change rule in source order, and finally the filter
that drops Low-level non-removal records. -/
def classifyChange (c : Change) : Option Impact :=
  let lastKey := lastSegment (Change.path c)
  let base := baselineLevel lastKey
  let cat := baselineCategory lastKey
  let result : Level × String × String × String :=
    match c with
    | .removed _ _ =>
      (if base = Level.low then Level.medium else base,
       "Удалено поле: " ++ lastKey,
       "Удаление поля может привести к ошибкам в коде.",
       "Убедитесь, что это поле больше не используется.")
    | .added _ _ =>
      (base, "Добавлено новое поле: " ++ lastKey, "Новое поле в конфигурации.", "")
    | .modified _ o n =>
      let st0 : Level × String × String := (base, "", "")
      let st1 :=
        if matchesTimeout lastKey then
          match jsToNumber o, jsToNumber n with
          | some oldVal, some newVal =>
            if newVal < oldVal then
              (Level.high,
               "Таймаут уменьшен с " ++ toString oldVal ++ " до " ++ toString newVal ++ ".",
               "Убедитесь, что новое значение достаточно.")
            else st0
          | _, _ => st0
        else st0
      let st2 :=
        if matchesEnabledActive lastKey then
          (Level.critical,
           "Изменён флаг активности: " ++ jsToString o ++ " → " ++ jsToString n,
           "Критическое изменение. Проверьте влияние!")
        else st1
      let st3 :=
        if jsTypeof o ≠ jsTypeof n then
          (Level.high, "Изменён тип данных с " ++ jsTypeof o ++ " на " ++ jsTypeof n, st2.2.2)
        else st2
      (st3.1, "Изменено значение: " ++ lastKey, st3.2.1, st3.2.2)
  if result.1 ≠ Level.low ∨ isRemovedKind c = true then
    some ⟨result.1, Change.path c, result.2.1, result.2.2.1, result.2.2.2,
          changeKindStr c, cat⟩
  else none

/-- `analyzeImpactLocal(changes)`: at most one impact record per change
record, in input order. -/
def analyzeImpactLocal (changes : List Change) : List Impact :=
  changes.filterMap classifyChange

/-- Scalar coercion of a YAML value string: `true`/`false` become
booleans, a numeric literal becomes a number (the `!isNaN(...) &&
parsedValue !== ''` test), a double-quoted string is stripped of its
quotes, and anything else stays a string. -/
def parseScalarYaml (raw : String) : Value :=
  let pv := jsTrim raw
  if pv = "true" then .vbool true
  else if pv = "false" then .vbool false
  else if (strToNumber pv).isSome ∧ pv ≠ "" then .vnum ((strToNumber pv).getD 0)
  else if strStartsWith pv "\"" ∧ strEndsWith pv "\"" then
    .vstr ((pv.drop 1).dropRight 1)
  else .vstr pv

/-- Pop indentation-stack entries while more than one entry remains and
the top entry's indent is at least the current line's indent.  A stack
entry is the root-first key path of an open mapping together with its
indent (the JavaScript original stores an object reference instead of a
path; writes only ever target the current tree, so the two views
agree). -/
def popStack : List (List String × Int) → Int → List (List String × Int)
  | top :: second :: rest, indent =>
    if indent ≤ top.2 then popStack (second :: rest) indent
    else top :: second :: rest
  | stack, _ => stack

/-- `line.search(/\S/)`: index of the first non-whitespace character,
or -1. -/
def searchNonWs : List Char → Int → Int
  | [], _ => -1
  | c :: cs, i => if c.isWhitespace then searchNonWs cs (i + 1) else i

/-- Assignment `fields[key] = v` on an object's field list: overwrite
in place when the key exists, append otherwise. -/
def setField : List (String × Value) → String → Value → List (String × Value)
  | [], key, v => [(key, v)]
  | (k, w) :: rest, key, v =>
    if k = key then (k, v) :: rest else (k, w) :: setField rest key v

/-- Assignment through a root-first key path:
`root.p1.p2...pn[key] = v`.  A missing or non-object intermediate is
replaced by a fresh mapping (unreachable while the stack invariant of
`parseYAML` holds). -/
def setAtPath : List (String × Value) → List String → String → Value → List (String × Value)
  | fields, [], key, v => setField fields key v
  | fields, p :: ps, key, v =>
    let g :=
      match strLookup fields p with
      | some (.vobj g) => g
      | _ => []
    setField fields p (.vobj (setAtPath g ps key v))

/-- One iteration of the `parseYAML` line loop over the state
(current tree, indentation stack): skip blank and comment lines, match
the trimmed line against `^([^:]+):\s*(.*)$`, pop the stack to the
enclosing mapping, then either assign a coerced scalar or open a fresh
nested mapping and push it. -/
def yamlLineStep (state : List (String × Value) × List (List String × Int))
    (line : String) : List (String × Value) × List (List String × Int) :=
  let t := jsTrim line
  if t = "" ∨ strStartsWith t "#" then state
  else
    let indent := searchNonWs line.data 0
    match strSplitChar ':' t with
    | [] => state
    | key :: rest =>
      if key = "" ∨ rest.isEmpty then state
      else
        let value := dropLeadingWs (String.intercalate ":" rest)
        let stack1 := popStack state.2 indent
        let parentPath := (stack1.headD ([], -1)).1
        if value ≠ "" then
          (setAtPath state.1 parentPath (jsTrim key) (parseScalarYaml value), stack1)
        else
          (setAtPath state.1 parentPath (jsTrim key) (.vobj []),
           (parentPath ++ [jsTrim key], indent) :: stack1)

/-- `parseYAML(content)`: the minimal indentation-based key:value
parser, applied line by line. -/
def parseYAML (content : String) : List (String × Value) :=
  ((strSplitChar '\n' content).foldl yamlLineStep ([], [([], -1)])).1

/-- The error kinds `loadFile` can raise. -/
inductive LoadError where
  | fileNotFound
  | parseError
  | unsupportedFormat
  deriving DecidableEq

/-- `loadFile(filePath)`, abstracted over the platform JSON parser
(`JSON.parse`, whose thrown SyntaxError is modelled as `none`) and over
the file system (existence flag, extension, file content): a missing
file fails; `.json` parses as JSON and propagates a parse failure;
`.yaml`/`.yml` use `parseYAML`; every other extension falls back to
JSON parsing and reports an unsupported format when that fails. -/
def loadFile (jsonParse : String → Option Value) (fileExists : Bool)
    (extRaw : String) (content : String) : Except LoadError Value :=
  if fileExists = false then .error .fileNotFound
  else
    let ext := toLowerStr extRaw
    if ext = ".json" then
      match jsonParse content with
      | some v => .ok v
      | none => .error .parseError
    else if ext = ".yaml" ∨ ext = ".yml" then
      .ok (.vobj (parseYAML content))
    else
      match jsonParse content with
      | some v => .ok v
      | none => .error .unsupportedFormat

/-- `loadHistory()`, abstracted over the platform JSON parser and the
history file (`none` when the file does not exist): any failure inside
the try block falls through to the empty list. -/
def loadHistory (historyFile : Option String)
    (jsonParse : String → Option Value) : Value :=
  match historyFile with
  | none => .varr []
  | some content =>
    match jsonParse content with
    | none => .varr []
    | some v => v

/-- One persisted comparison run, restricted to the fields
`analyzeHistory` reads. -/
structure HistoryEntry where
  name : String
  timestamp : String
  changes : List Change

/-- One insight produced by `analyzeHistory` (its `type` tag and the
formatted path list). -/
structure Insight where
  insightType : String
  paths : List String

/-- `pathCounts[path] = (pathCounts[path] || 0) + 1`: bump a path's
count in an insertion-ordered counter list. -/
def bumpCount : List (String × Nat) → String → List (String × Nat)
  | [], p => [(p, 1)]
  | (q, c) :: rest, p =>
    if q = p then (q, c + 1) :: rest else (q, c) :: bumpCount rest p

/-- Insert one counted path into a list sorted by strictly descending
count, after all entries with a count at least as large (the stable
behaviour of `sort((a, b) => b[1] - a[1])`). -/
def insertDescPair (x : String × Nat) : List (String × Nat) → List (String × Nat)
  | [] => [x]
  | y :: rest => if y.2 < x.2 then x :: y :: rest else y :: insertDescPair x rest

/-- Stable sort by descending count. -/
def sortPairsDesc (l : List (String × Nat)) : List (String × Nat) :=
  l.foldl (fun acc x => insertDescPair x acc) []

/-- Formatting of one frequent path: `path (countx)`. -/
def fmtPair (p : String × Nat) : String :=
  p.1 ++ " (" ++ toString p.2 ++ "x)"

/-- `analyzeHistory(history)`: empty for fewer than 3 entries;
otherwise count change paths across all entries, keep those occurring
at least 3 times, sort by descending count, and report the top 5 in a
single frequent-changes insight (none when no path qualifies). -/
def analyzeHistory (history : List HistoryEntry) : List Insight :=
  if history.length < 3 then []
  else
    let allChanges := history.flatMap (fun h => h.changes)
    let pathCounts := allChanges.foldl (fun acc c => bumpCount acc (Change.path c)) []
    let frequentlyChanged := sortPairsDesc (pathCounts.filter (fun pc => 3 ≤ pc.2))
    if frequentlyChanged.isEmpty then []
    else [⟨"frequent_changes", (frequentlyChanged.take 5).map fmtPair⟩]

/-- Occurrences of a change path across all entries of a history. -/
def countOccur (p : String) (history : List HistoryEntry) : Nat :=
  (history.flatMap (fun h => h.changes)).countP (fun c => Change.path c = p)

/-- Total lexicographic order on strings by character code, used only
to canonicalize mapping key order inside `deepEqSpec`. -/
def charListLe : List Char → List Char → Bool
  | [], _ => true
  | _ :: _, [] => false
  | a :: as, b :: bs => if a < b then true else if b < a then false else charListLe as bs

/-- Key comparison for the canonicalizing sort. -/
def keyLe (a b : String) : Bool :=
  charListLe a.data b.data

/-- Ordered insertion of a field by key. -/
def insertFieldByKey (p : String × Value) : List (String × Value) → List (String × Value)
  | [] => [p]
  | q :: rest => if keyLe p.1 q.1 then p :: q :: rest else q :: insertFieldByKey p rest

/-- Insertion sort of an object's fields by key. -/
def sortFieldsByKey (l : List (String × Value)) : List (String × Value) :=
  l.foldr insertFieldByKey []

/-- Recursively sort every mapping's keys, fuel-bounded on depth. -/
def sortKeysFuel : Nat → Value → Value
  | 0, v => v
  | fuel + 1, v =>
    match v with
    | .vobj fs => .vobj (sortFieldsByKey (fs.map fun kv => (kv.1, sortKeysFuel fuel kv.2)))
    | .varr xs => .varr (xs.map (sortKeysFuel fuel))
    | x => x

/-- Canonical form of a value with every mapping's keys sorted. -/
def sortKeys (v : Value) : Value :=
  sortKeysFuel (valueSize v) v

/-- Modelled from the claim's words (spec side, for comparison with the
code's serialized comparison): deep, value-based equality, recursive
through nested sequences and mappings, with mapping key order
irrelevant — realized by comparing key-order canonical forms
structurally. -/
def deepEqSpec (a b : Value) : Bool :=
  valueBeq (sortKeys a) (sortKeys b)

/-! Lemmas about key sets and the fuel-bounded diff. -/

theorem mem_dedupFirst (k : String) :
    ∀ (l seen : List String), k ∈ dedupFirst seen l ↔ (k ∈ l ∧ k ∉ seen) := by
  intro l
  induction l with
  | nil => intro seen; simp [dedupFirst]
  | cons h t ih =>
    intro seen
    by_cases hs : h ∈ seen <;>
      simp only [dedupFirst, hs, if_pos, if_neg, not_false_eq_true, ih, List.mem_cons] <;>
      by_cases hkh : k = h <;> simp [hkh, hs]

theorem hasKey_iff_mem_map (l : List (String × Value)) (k : String) :
    hasKey l k = true ↔ k ∈ l.map Prod.fst := by
  simp only [hasKey, List.any_eq_true, List.mem_map, decide_eq_true_eq]

theorem mem_unionKeys (a b : List (String × Value)) (k : String) :
    k ∈ unionKeys a b ↔ (hasKey a k = true ∨ hasKey b k = true) := by
  simp [unionKeys, mem_dedupFirst, hasKey_iff_mem_map]

theorem fieldsSize_pos (l : List (String × Value)) : 1 ≤ fieldsSize l := by
  cases l with
  | nil => simp [fieldsSize]
  | cons h t => cases h; simp [fieldsSize]; omega

theorem strLookup_size (l : List (String × Value)) (k : String) (v : Value) :
    strLookup l k = some v → valueSize v + 3 ≤ fieldsSize l := by
  induction l with
  | nil => intro h; simp [strLookup] at h
  | cons e rest ih =>
    rcases e with ⟨k1, w⟩
    intro h
    simp only [strLookup] at h
    by_cases hk : k1 = k
    · rw [if_pos hk] at h
      cases h
      have := fieldsSize_pos rest
      simp [fieldsSize]
      omega
    · rw [if_neg hk] at h
      have := ih h
      simp [fieldsSize]
      omega

theorem compareObjectsFuel_stable :
    ∀ (n : Nat) (a b : List (String × Value)) (path : String) (m : Nat),
      fieldsSize a + fieldsSize b ≤ n → n ≤ m →
      compareObjectsFuel n a b path = compareObjectsFuel m a b path := by
  intro n
  induction n with
  | zero =>
    intro a b path m hn _
    have ha := fieldsSize_pos a
    have hb := fieldsSize_pos b
    omega
  | succ n ih =>
    intro a b path m hn hm
    rcases m with _ | m
    · omega
    simp only [compareObjectsFuel]
    congr 1
    funext key
    simp only [diffKey]
    rcases ha : strLookup a key with _ | va
    · simp [ha]
    rcases hb : strLookup b key with _ | vb
    · simp [hb]
    simp only [ha, hb, Option.getD_some]
    cases va with
    | vobj fa =>
      cases vb with
      | vobj fb =>
        have hsa := strLookup_size a key _ ha
        have hsb := strLookup_size b key _ hb
        simp only [valueSize] at hsa hsb
        have : fieldsSize fa + fieldsSize fb ≤ n := by omega
        have : compareObjectsFuel n fa fb (if path = "" then key else path ++ "." ++ key) =
            compareObjectsFuel m fa fb (if path = "" then key else path ++ "." ++ key) :=
          ih fa fb _ m this (by omega)
        simp [this]
      | vnull => rfl
      | vbool x => rfl
      | vnum x => rfl
      | vstr x => rfl
      | varr x => rfl
    | vnull => rfl
    | vbool x => rfl
    | vnum x => rfl
    | vstr x => rfl
    | varr x => rfl

theorem compareObjectsFuel_self (fuel : Nat) :
    ∀ (a : List (String × Value)) (path : String),
      compareObjectsFuel fuel a a path = [] := by
  induction fuel with
  | zero => intro a path; rfl
  | succ fuel ih =>
    intro a path
    simp only [compareObjectsFuel]
    rw [List.flatMap_eq_nil_iff]
    intro key hkey
    have hk : hasKey a key = true := by
      rcases (mem_unionKeys a a key).mp hkey with h | h <;> exact h
    simp only [diffKey, hk]
    rcases hv : (strLookup a key).getD Value.vnull with _ | x | x | x | x | fa <;> simp [ih]

theorem mem_ite_singleton (c : Prop) [Decidable c] (x y : Change) :
    (x ∈ if c then [y] else ([] : List Change)) ↔ (c ∧ x = y) := by
  split <;> simp_all

theorem diffKey_added_removed
    (recur1 recur2 : List (String × Value) → List (String × Value) → String → List Change)
    (a b : List (String × Value)) (path key p : String) (v : Value)
    (hor : hasKey a key = true ∨ hasKey b key = true)
    (hrec : ∀ fa fb cp, (Change.added p v ∈ recur1 fa fb cp) ↔
      (Change.removed p v ∈ recur2 fb fa cp)) :
    (Change.added p v ∈ diffKey recur1 a b path key) ↔
      (Change.removed p v ∈ diffKey recur2 b a path key) := by
  by_cases h1 : hasKey a key = true <;> by_cases h2 : hasKey b key = true
  · simp only [diffKey, h1, h2, Bool.true_eq_false, if_false]
    generalize (strLookup a key).getD Value.vnull = va
    generalize (strLookup b key).getD Value.vnull = vb
    cases va <;> cases vb <;> simp [hrec, mem_ite_singleton]
  · have h2f : hasKey b key = false := by simpa using h2
    simp [diffKey, h1, h2f]
  · have h1f : hasKey a key = false := by simpa using h1
    simp [diffKey, h1f, h2]
  · rcases hor with h | h <;> simp_all

theorem diff_added_removed_symm (fuel : Nat) :
    ∀ (a b : List (String × Value)) (path p : String) (v : Value),
      (Change.added p v ∈ compareObjectsFuel fuel a b path) ↔
        (Change.removed p v ∈ compareObjectsFuel fuel b a path) := by
  induction fuel with
  | zero => intro a b path p v; simp [compareObjectsFuel]
  | succ fuel ih =>
    intro a b path p v
    simp only [compareObjectsFuel, List.mem_flatMap]
    constructor
    · rintro ⟨key, hkey, hmem⟩
      have hor := (mem_unionKeys a b key).mp hkey
      exact ⟨key, (mem_unionKeys b a key).mpr (Or.symm hor),
        (diffKey_added_removed _ _ a b path key p v hor
          (fun fa fb cp => ih fa fb cp p v)).mp hmem⟩
    · rintro ⟨key, hkey, hmem⟩
      have hor := (mem_unionKeys b a key).mp hkey
      exact ⟨key, (mem_unionKeys a b key).mpr (Or.symm hor),
        (diffKey_added_removed _ _ a b path key p v (Or.symm hor)
          (fun fa fb cp => ih fa fb cp p v)).mpr hmem⟩

theorem modified_mem_ne (fuel : Nat) :
    ∀ (a b : List (String × Value)) (path p : String) (o n : Value),
      Change.modified p o n ∈ compareObjectsFuel fuel a b path → o ≠ n := by
  induction fuel with
  | zero => intro a b path p o n h; simp [compareObjectsFuel] at h
  | succ fuel ih =>
    intro a b path p o n h
    simp only [compareObjectsFuel, List.mem_flatMap] at h
    obtain ⟨key, hkey, hmem⟩ := h
    by_cases h1 : hasKey a key = true
    · by_cases h2 : hasKey b key = true
      · simp only [diffKey, h1, h2, Bool.true_eq_false, if_false] at hmem
        generalize (strLookup a key).getD Value.vnull = va at hmem
        generalize (strLookup b key).getD Value.vnull = vb at hmem
        cases va <;> cases vb <;>
          first
            | exact ih _ _ _ _ _ _ hmem
            | (rw [mem_ite_singleton] at hmem
               obtain ⟨hne, heq⟩ := hmem
               injection heq with hp ho hn
               subst ho
               subst hn
               intro hcontra
               exact hne (congrArg jsonStringify hcontra))
      · have h2f : hasKey b key = false := by simpa using h2
        simp [diffKey, h1, h2f] at hmem
    · have h1f : hasKey a key = false := by simpa using h1
      simp [diffKey, h1f] at hmem

/-- C6: for every document mapping A, `diff(A,A)` is the empty change
sequence: every shared key holds the same value, so each key either
recurses into an identical pair of sub-mappings or serializes
identically and emits nothing. -/
theorem C6_diff_self_empty (a : List (String × Value)) : compareObjects a a = [] :=
  compareObjectsFuel_self _ a ""

/-- C5: diff classification is symmetric: a (path, value) pair is
reported Added by `diff(A,B)` exactly when `diff(B,A)` reports it
Removed, and vice versa. -/
theorem C5_diff_symmetric (a b : List (String × Value)) (p : String) (v : Value) :
    ((Change.added p v ∈ compareObjects a b) ↔ (Change.removed p v ∈ compareObjects b a)) ∧
    ((Change.removed p v ∈ compareObjects a b) ↔ (Change.added p v ∈ compareObjects b a)) := by
  unfold compareObjects
  rw [Nat.add_comm (fieldsSize b) (fieldsSize a)]
  exact ⟨diff_added_removed_symm _ a b "" p v, (diff_added_removed_symm _ b a "" p v).symm⟩

/-- C4 counterexample: the claim demands `oldValue != newValue` under a
deep equality that ignores mapping key order, but `compareObjects`
compares by JSON serialization, which is key-order sensitive inside
arrays: two documents whose nested mapping differs only in key order
produce a Modified record whose two values are deep-equal in the
claim's sense. -/
theorem C4_counterexample :
    (Change.modified "a" (Value.varr [Value.vobj [("x", Value.vnum 1), ("y", Value.vnum 2)]])
        (Value.varr [Value.vobj [("y", Value.vnum 2), ("x", Value.vnum 1)]]) ∈
      compareObjects [("a", Value.varr [Value.vobj [("x", Value.vnum 1), ("y", Value.vnum 2)]])]
        [("a", Value.varr [Value.vobj [("y", Value.vnum 2), ("x", Value.vnum 1)]])]) ∧
    deepEqSpec (Value.varr [Value.vobj [("x", Value.vnum 1), ("y", Value.vnum 2)]])
        (Value.varr [Value.vobj [("y", Value.vnum 2), ("x", Value.vnum 1)]]) = true := by
  constructor
  · have h : compareObjects
        [("a", Value.varr [Value.vobj [("x", Value.vnum 1), ("y", Value.vnum 2)]])]
        [("a", Value.varr [Value.vobj [("y", Value.vnum 2), ("x", Value.vnum 1)]])] =
        [Change.modified "a"
          (Value.varr [Value.vobj [("x", Value.vnum 1), ("y", Value.vnum 2)]])
          (Value.varr [Value.vobj [("y", Value.vnum 2), ("x", Value.vnum 1)]])] := rfl
    rw [h]
    exact List.mem_singleton.mpr rfl
  · rfl

/-- C4 (amended): every Modified record of `diff(A,B)` has
`oldValue != newValue` under key-order-sensitive structural equality
(the serialized comparison the code performs); key-order-insensitive
deep equality can still hold for such a record. -/
theorem C4_modified_values_differ (a b : List (String × Value)) (p : String) (o n : Value)
    (h : Change.modified p o n ∈ compareObjects a b) : o ≠ n :=
  modified_mem_ne _ a b "" p o n h

theorem C4_modified_values_differ_witness : Value.vnum 1 ≠ Value.vnum 2 :=
  C4_modified_values_differ [("x", Value.vnum 1)] [("x", Value.vnum 2)] "x"
    (Value.vnum 1) (Value.vnum 2)
    (by
      have h : compareObjects [("x", Value.vnum 1)] [("x", Value.vnum 2)] =
          [Change.modified "x" (Value.vnum 1) (Value.vnum 2)] := rfl
      rw [h]
      exact List.mem_singleton.mpr rfl)

/-! Lemmas about the pattern tiers of the classifier. -/

theorem enabled_not_timeout (k : String) (h : matchesEnabledActive k = true) :
    matchesTimeout k = false := by
  have hl : toLowerStr k = "enable" ∨ toLowerStr k = "enabled" ∨ toLowerStr k = "active" := by
    simpa [matchesEnabledActive] using h
  unfold matchesTimeout
  rcases hl with h1 | h1 | h1 <;> rw [h1] <;> rfl

theorem timeout_matches_high (k : String) (h : matchesTimeout k = true) :
    matchesHighPattern k = true := by
  unfold matchesTimeout at h
  simp only [matchesHighPattern, Bool.or_eq_true]
  tauto

theorem baseline_ne_low_of_high (k : String) (h : matchesHighPattern k = true) :
    baselineLevel k ≠ Level.low := by
  unfold baselineLevel
  split_ifs <;> simp_all

/-- C2 counterexample: a modified `secret` field changing from string
to number has Critical baseline tier, yet the type-mismatch rule runs
last and overwrites the level with High — the rule does lower a
Critical baseline, contradicting the claim. -/
theorem C2_counterexample :
    matchesCriticalPattern (lastSegment "secret") = true ∧
    baselineLevel (lastSegment "secret") = Level.critical ∧
    jsTypeof (Value.vstr "x") ≠ jsTypeof (Value.vnum 1) ∧
    (classifyChange (Change.modified "secret" (Value.vstr "x") (Value.vnum 1))).map Impact.level =
      some Level.high ∧
    Level.high ≠ Level.critical := by
  refine ⟨rfl, rfl, ?_, rfl, ?_⟩ <;> decide

/-- C2 (amended): for every Modified change whose old and new run-time
types differ, the final level is exactly High — the type-mismatch rule
is an unconditional overwrite, so it also lowers a Critical baseline
(e.g. a modified `secret` changing string → number) down to High. -/
theorem C2_type_change_level (path : String) (o n : Value)
    (h : jsTypeof o ≠ jsTypeof n) :
    (classifyChange (Change.modified path o n)).map Impact.level = some Level.high := by
  simp [classifyChange, Change.path, h]

theorem C2_type_change_level_witness :
    (classifyChange (Change.modified "secret" (Value.vstr "x") (Value.vnum 1))).map Impact.level =
      some Level.high :=
  C2_type_change_level "secret" (Value.vstr "x") (Value.vnum 1) (by decide)

/-- C1 counterexample: a Modified `enabled` field whose old and new
values have different run-time types ends at High, not Critical — the
type-mismatch rule runs after the activity-flag rule and overwrites the
Critical level, contradicting "regardless of the old and new values". -/
theorem C1_counterexample :
    matchesEnabledActive (lastSegment "enabled") = true ∧
    (classifyChange (Change.modified "enabled" (Value.vbool true) (Value.vstr "false"))).map
        Impact.level ≠ some Level.critical := by
  constructor
  · rfl
  · have h : (classifyChange (Change.modified "enabled" (Value.vbool true)
        (Value.vstr "false"))).map Impact.level = some Level.high := rfl
    rw [h]
    simp

/-- C1 (amended): a Modified change on an `enabled`/`active`-matching
field is escalated to Critical regardless of baseline tier and of the
values, except when the two run-time types differ: then the subsequent
type-mismatch rule overwrites the level to High. -/
theorem C1_enabled_escalation (path : String) (o n : Value)
    (h : matchesEnabledActive (lastSegment path) = true) :
    (classifyChange (Change.modified path o n)).map Impact.level =
      some (if jsTypeof o = jsTypeof n then Level.critical else Level.high) := by
  by_cases hty : jsTypeof o = jsTypeof n <;> simp [classifyChange, Change.path, h, hty]

theorem C1_enabled_escalation_witness :
    (classifyChange (Change.modified "enabled" (Value.vbool true) (Value.vbool false))).map
        Impact.level = some Level.critical := by
  have h := C1_enabled_escalation "enabled" (Value.vbool true) (Value.vbool false) (by rfl)
  simpa using h

/-- C8: every Removed change yields exactly one impact record — the
final filter always admits removals, so the record reaches the output
of `analyzeImpactLocal` whenever the change is in its input — its
level is the baseline tier escalated from Low to Medium, hence always
at least Medium, and a Critical baseline (such as a removed `secret`)
stays Critical. -/
theorem C8_removed_escalation (path : String) (v : Value) :
    ∃ i, classifyChange (Change.removed path v) = some i ∧
      (∀ cs : List Change, Change.removed path v ∈ cs → i ∈ analyzeImpactLocal cs) ∧
      i.level = (if baselineLevel (lastSegment path) = Level.low then Level.medium
                 else baselineLevel (lastSegment path)) ∧
      Level.rank Level.medium ≤ Level.rank i.level ∧
      (baselineLevel (lastSegment path) = Level.critical → i.level = Level.critical) := by
  simp only [classifyChange, Change.path, isRemovedKind]
  rw [if_pos (Or.inr trivial)]
  refine ⟨_, rfl, ?_, rfl, ?_, ?_⟩
  · intro cs hcs
    simp only [analyzeImpactLocal]
    refine List.mem_filterMap.mpr ⟨_, hcs, ?_⟩
    simp only [classifyChange, Change.path, isRemovedKind]
    rw [if_pos (Or.inr trivial)]
  · by_cases hb : baselineLevel (lastSegment path) = Level.low
    · simp [hb, Level.rank]
    · rcases hbe : baselineLevel (lastSegment path) <;> simp_all [Level.rank]
  · intro hc
    simp [hc]

/-- C7 counterexample: with `oldValue` the string "30" and `newValue`
the number 10, both parse as numbers and the rule fires, but the
type-mismatch rule afterwards overwrites the description, so the final
record no longer references the numeric values, contradicting the
claimed description. -/
theorem C7_counterexample :
    matchesTimeout (lastSegment "timeout") = true ∧
    jsToNumber (Value.vstr "30") = some 30 ∧
    jsToNumber (Value.vnum 10) = some 10 ∧
    ((10 : Int) < 30) ∧
    (classifyChange (Change.modified "timeout" (Value.vstr "30") (Value.vnum 10))).map
        Impact.description = some "Изменён тип данных с string на number" ∧
    containsSub "Изменён тип данных с string на number" "30" = false := by
  exact ⟨rfl, rfl, rfl, by decide, rfl, by decide⟩

/-- C7 (amended): on a `timeout`-matching Modified change, when both
values parse as numbers and the new number is strictly smaller, the
final level is High, and the description references both numeric values
unless the two run-time types differ, in which case the type-change
rule overwrites the description; when either value fails to parse as a
number the rule does not fire and the level is the baseline (or High on
a type mismatch). -/
theorem C7_timeout_rule (path : String) (o n : Value)
    (htm : matchesTimeout (lastSegment path) = true) :
    (∀ a b : Int, jsToNumber o = some a → jsToNumber n = some b → b < a →
      ∃ i, classifyChange (Change.modified path o n) = some i ∧ i.level = Level.high ∧
        (jsTypeof o = jsTypeof n →
          i.description =
            "Таймаут уменьшен с " ++ toString a ++ " до " ++ toString b ++ ".")) ∧
    ((jsToNumber o = none ∨ jsToNumber n = none) →
      (classifyChange (Change.modified path o n)).map Impact.level =
        some (if jsTypeof o = jsTypeof n then baselineLevel (lastSegment path)
              else Level.high)) := by
  have hen : matchesEnabledActive (lastSegment path) = false := by
    by_cases h : matchesEnabledActive (lastSegment path) = true
    · rw [enabled_not_timeout _ h] at htm
      cases htm
    · simpa using h
  have hnl : baselineLevel (lastSegment path) ≠ Level.low :=
    baseline_ne_low_of_high _ (timeout_matches_high _ htm)
  constructor
  · intro a b ha hb hlt
    by_cases hty : jsTypeof o = jsTypeof n <;>
      simp [classifyChange, Change.path, htm, ha, hb, hlt, hen, hty]
  · intro hno
    rcases hno with ho | hn
    · rcases hbn : jsToNumber n with _ | x <;>
        by_cases hty : jsTypeof o = jsTypeof n <;>
          simp [classifyChange, Change.path, htm, ho, hbn, hen, hnl, hty]
    · rcases hbo : jsToNumber o with _ | x <;>
        by_cases hty : jsTypeof o = jsTypeof n <;>
          simp [classifyChange, Change.path, htm, hn, hbo, hen, hnl, hty]

theorem C7_timeout_rule_witness :
    ∃ i, classifyChange (Change.modified "timeout" (Value.vnum 30) (Value.vnum 10)) = some i ∧
      i.level = Level.high ∧
      (jsTypeof (Value.vnum 30) = jsTypeof (Value.vnum 10) →
        i.description =
          "Таймаут уменьшен с " ++ toString (30 : Int) ++ " до " ++ toString (10 : Int) ++ ".") :=
  (C7_timeout_rule "timeout" (Value.vnum 30) (Value.vnum 10) (by rfl)).1 30 10
    (by rfl) (by rfl) (by decide)

/-- C3 counterexample: for the extension ".txt" and the content
"a: 1" — valid for the YAML-subset parser but not JSON, so the faithful
JSON-parser model returns `none` on it — the loader raises
UnsupportedFormat instead of returning the YAML parse, refuting the
claim that unrecognized extensions use the YAML-subset parser. -/
theorem C3_counterexample :
    loadFile (fun _ => none) true ".txt" "a: 1" = Except.error LoadError.unsupportedFormat ∧
    parseYAML "a: 1" = [("a", Value.vnum 1)] ∧
    (Except.error LoadError.unsupportedFormat : Except LoadError Value) ≠
      Except.ok (Value.vobj [("a", Value.vnum 1)]) := by
  refine ⟨rfl, rfl, ?_⟩
  simp

/-- C3 (amended): a file whose lower-cased extension is none of .json,
.yaml, .yml is parsed with the JSON parser, and when that fails the
loader reports UnsupportedFormat; the YAML-subset parser is used only
for .yaml/.yml. -/
theorem C3_unknown_ext_json_fallback (jsonParse : String → Option Value)
    (extRaw content : String)
    (h1 : toLowerStr extRaw ≠ ".json") (h2 : toLowerStr extRaw ≠ ".yaml")
    (h3 : toLowerStr extRaw ≠ ".yml") :
    loadFile jsonParse true extRaw content =
      (match jsonParse content with
       | some v => Except.ok v
       | none => Except.error LoadError.unsupportedFormat) := by
  simp [loadFile, h1, h2, h3]

theorem C3_unknown_ext_json_fallback_witness :
    loadFile (fun _ => none) true ".txt" "x" = Except.error LoadError.unsupportedFormat := by
  have h := C3_unknown_ext_json_fallback (fun _ => none) ".txt" "x"
    (by decide) (by decide) (by decide)
  simpa using h

/-- C10: loading the persisted history never fails — a missing history
file yields the empty array, and so does content the JSON parser
rejects; only successfully parsed content is returned, so a corrupted
history file silently resets the history. -/
theorem C10_loadHistory_total (jsonParse : String → Option Value) :
    loadHistory none jsonParse = Value.varr [] ∧
    (∀ s, jsonParse s = none → loadHistory (some s) jsonParse = Value.varr []) ∧
    (∀ s v, jsonParse s = some v → loadHistory (some s) jsonParse = v) := by
  refine ⟨rfl, ?_, ?_⟩ <;> intros <;> simp [loadHistory, *]

theorem C10_loadHistory_total_witness :
    loadHistory (some "corrupt") (fun _ => none) = Value.varr [] :=
  (C10_loadHistory_total (fun _ => none)).2.1 "corrupt" rfl

/-! Lemmas about the history analyzer's counting and sorting. -/

/-- The count stored for a path in a counter list (0 when absent). -/
def countVal (l : List (String × Nat)) (p : String) : Nat :=
  ((l.find? (fun pc => pc.1 = p)).map Prod.snd).getD 0

theorem countVal_bumpCount (l : List (String × Nat)) (q p : String) :
    countVal (bumpCount l q) p = countVal l p + (if q = p then 1 else 0) := by
  induction l with
  | nil => by_cases hqp : q = p <;> simp [bumpCount, countVal, List.find?, hqp]
  | cons e rest ih =>
    rcases e with ⟨k, c⟩
    by_cases hkq : k = q
    · subst hkq
      by_cases hkp : k = p
      · subst hkp
        simp [bumpCount, countVal, List.find?]
      · simp [bumpCount, countVal, List.find?, hkp]
    · by_cases hkp : k = p
      · subst hkp
        have hqk : ¬ q = k := fun h => hkq h.symm
        simp [bumpCount, countVal, List.find?, hkq, hqk]
      · simp only [bumpCount, if_neg hkq]
        simp [countVal, List.find?, hkp] at ih ⊢
        exact ih

theorem countVal_foldl (changes : List Change) :
    ∀ (acc : List (String × Nat)) (p : String),
      countVal (changes.foldl (fun acc c => bumpCount acc (Change.path c)) acc) p =
        countVal acc p + changes.countP (fun c => Change.path c = p) := by
  induction changes with
  | nil => intro acc p; simp
  | cons ch rest ih =>
    intro acc p
    simp only [List.foldl_cons, List.countP_cons, ih, countVal_bumpCount]
    by_cases h : Change.path ch = p <;> simp [h] <;> omega

theorem map_fst_bumpCount (l : List (String × Nat)) (q : String) :
    (bumpCount l q).map Prod.fst =
      (if q ∈ l.map Prod.fst then l.map Prod.fst else l.map Prod.fst ++ [q]) := by
  induction l with
  | nil => simp [bumpCount]
  | cons e rest ih =>
    rcases e with ⟨k, c⟩
    by_cases hkq : k = q
    · subst hkq
      simp [bumpCount]
    · have hqk : ¬ q = k := fun h => hkq h.symm
      by_cases hmem : q ∈ rest.map Prod.fst <;>
        simp [bumpCount, hkq, hqk, hmem, ih]

theorem nodup_bumpCount (l : List (String × Nat)) (q : String)
    (h : (l.map Prod.fst).Nodup) : ((bumpCount l q).map Prod.fst).Nodup := by
  rw [map_fst_bumpCount]
  by_cases hmem : q ∈ l.map Prod.fst
  · simpa [hmem] using h
  · simp only [hmem, if_neg, not_false_eq_true]
    simp [List.nodup_append, h, hmem]

theorem nodup_foldl_bumpCount (changes : List Change) :
    ∀ acc : List (String × Nat), (acc.map Prod.fst).Nodup →
      (((changes.foldl (fun acc c => bumpCount acc (Change.path c)) acc)).map Prod.fst).Nodup := by
  induction changes with
  | nil => intro acc h; simpa using h
  | cons ch rest ih =>
    intro acc h
    exact ih _ (nodup_bumpCount acc (Change.path ch) h)

theorem countVal_of_mem (l : List (String × Nat)) (h : (l.map Prod.fst).Nodup) :
    ∀ pc ∈ l, countVal l pc.1 = pc.2 := by
  induction l with
  | nil => simp
  | cons e rest ih =>
    rcases e with ⟨k, c⟩
    intro pc hpc
    rcases List.mem_cons.mp hpc with heq | hmem
    · subst heq
      simp [countVal, List.find?]
    · have hk : k ∉ rest.map Prod.fst := (List.nodup_cons.mp (by simpa using h)).1
      have hne : ¬ k = pc.1 := by
        intro hcontra
        exact hk (hcontra ▸ List.mem_map.mpr ⟨pc, hmem, rfl⟩)
      have := ih (List.nodup_cons.mp (by simpa using h)).2 pc hmem
      simpa [countVal, List.find?, hne] using this

theorem mem_of_countVal_ne (l : List (String × Nat)) (p : String)
    (h : countVal l p ≠ 0) : (p, countVal l p) ∈ l := by
  induction l with
  | nil => simp [countVal, List.find?] at h
  | cons e rest ih =>
    rcases e with ⟨k, c⟩
    by_cases hkp : k = p
    · subst hkp
      simp [countVal, List.find?]
    · have hcons : countVal ((k, c) :: rest) p = countVal rest p := by
        simp [countVal, List.find?, hkp]
      rw [hcons] at h ⊢
      exact List.mem_cons_of_mem _ (ih h)

theorem mem_insertDescPair (x y : String × Nat) (l : List (String × Nat)) :
    x ∈ insertDescPair y l ↔ x = y ∨ x ∈ l := by
  induction l with
  | nil => simp [insertDescPair]
  | cons z rest ih =>
    simp only [insertDescPair]
    split
    · simp [List.mem_cons]
    · simp [List.mem_cons, ih]
      tauto

theorem mem_sortPairsDesc (x : String × Nat) (l : List (String × Nat)) :
    x ∈ sortPairsDesc l ↔ x ∈ l := by
  have haux : ∀ (l acc : List (String × Nat)),
      x ∈ l.foldl (fun acc y => insertDescPair y acc) acc ↔ x ∈ acc ∨ x ∈ l := by
    intro l
    induction l with
    | nil => intro acc; simp
    | cons y rest ih =>
      intro acc
      simp only [List.foldl_cons, ih, mem_insertDescPair, List.mem_cons]
      tauto
  simpa using haux l []

theorem sorted_insertDescPair (x : String × Nat) (l : List (String × Nat))
    (h : l.Pairwise (fun u v => v.2 ≤ u.2)) :
    (insertDescPair x l).Pairwise (fun u v => v.2 ≤ u.2) := by
  induction l with
  | nil => simp [insertDescPair]
  | cons y rest ih =>
    rcases List.pairwise_cons.mp h with ⟨hy, hrest⟩
    simp only [insertDescPair]
    split
    · rename_i hc
      refine List.pairwise_cons.mpr ⟨?_, h⟩
      intro z hz
      rcases List.mem_cons.mp hz with rfl | hzr
      · omega
      · have := hy z hzr
        omega
    · rename_i hc
      refine List.pairwise_cons.mpr ⟨?_, ih hrest⟩
      intro z hz
      rcases (mem_insertDescPair z x rest).mp hz with rfl | hzr
      · omega
      · exact hy z hzr

theorem sorted_sortPairsDesc (l : List (String × Nat)) :
    (sortPairsDesc l).Pairwise (fun u v => v.2 ≤ u.2) := by
  have haux : ∀ (l acc : List (String × Nat)),
      acc.Pairwise (fun u v => v.2 ≤ u.2) →
      (l.foldl (fun acc y => insertDescPair y acc) acc).Pairwise (fun u v => v.2 ≤ u.2) := by
    intro l
    induction l with
    | nil => intro acc h; simpa using h
    | cons y rest ih =>
      intro acc h
      exact ih _ (sorted_insertDescPair y acc h)
  exact haux l [] (by simp)

/-- C9: with fewer than 3 history entries the analyzer reports nothing;
with 3 or more, the reported insight is built from the list of
(path, count) pairs whose count across all entries' changes is at least
3, sorted by descending count and truncated to the first 5 after
formatting — the characterizing list is sorted, carries the exact
occurrence counts, and contains every path occurring at least 3 times.
The analyzer is a pure function of the history, so the history is never
modified. -/
theorem C9_analyzeHistory (history : List HistoryEntry) :
    (history.length < 3 → analyzeHistory history = []) ∧
    (3 ≤ history.length → ∃ l : List (String × Nat),
      analyzeHistory history =
        (if l.isEmpty then []
         else [⟨"frequent_changes", (l.take 5).map fmtPair⟩]) ∧
      l.Pairwise (fun u v => v.2 ≤ u.2) ∧
      (∀ pc ∈ l, pc.2 = countOccur pc.1 history ∧ 3 ≤ pc.2) ∧
      (∀ p : String, 3 ≤ countOccur p history → ∃ c : Nat, (p, c) ∈ l)) := by
  constructor
  · intro h
    simp [analyzeHistory, h]
  · intro h3
    have hlt : ¬ history.length < 3 := by omega
    set counts := (history.flatMap fun h => h.changes).foldl
      (fun acc c => bumpCount acc (Change.path c)) [] with hcounts
    have hnodup : (counts.map Prod.fst).Nodup :=
      nodup_foldl_bumpCount _ [] (by simp)
    have hval : ∀ p : String, countVal counts p = countOccur p history := by
      intro p
      rw [hcounts, countVal_foldl]
      simp [countVal, List.find?, countOccur]
    refine ⟨sortPairsDesc (counts.filter fun pc => 3 ≤ pc.2), ?_, ?_, ?_, ?_⟩
    · simp only [analyzeHistory, if_neg hlt]
    · exact sorted_sortPairsDesc _
    · intro pc hpc
      have hmem := (mem_sortPairsDesc pc _).mp hpc
      have hfil := List.mem_filter.mp hmem
      have h3c : 3 ≤ pc.2 := by simpa using hfil.2
      have := countVal_of_mem counts hnodup pc hfil.1
      exact ⟨by rw [← hval pc.1, this], h3c⟩
    · intro p hp
      have hne : countVal counts p ≠ 0 := by
        rw [hval p]
        omega
      have hmem := mem_of_countVal_ne counts p hne
      refine ⟨countVal counts p, (mem_sortPairsDesc _ _).mpr (List.mem_filter.mpr ⟨hmem, ?_⟩)⟩
      simp [hval p]
      omega

theorem C9_analyzeHistory_witness :
    analyzeHistory [] = [] ∧
    analyzeHistory
        [⟨"n", "t", [Change.modified "x" Value.vnull (Value.vnum 1)]⟩,
         ⟨"n", "t", [Change.modified "x" Value.vnull (Value.vnum 1)]⟩,
         ⟨"n", "t", [Change.modified "x" Value.vnull (Value.vnum 1)]⟩] =
      [⟨"frequent_changes", ["x (3x)"]⟩] :=
  ⟨(C9_analyzeHistory []).1 (by decide), rfl⟩

theorem C8_removed_escalation_witness :
    ∃ i, classifyChange (Change.removed "secret" (Value.vstr "x")) = some i ∧
      (∀ cs : List Change, Change.removed "secret" (Value.vstr "x") ∈ cs →
        i ∈ analyzeImpactLocal cs) ∧
      i.level = (if baselineLevel (lastSegment "secret") = Level.low then Level.medium
                 else baselineLevel (lastSegment "secret")) ∧
      Level.rank Level.medium ≤ Level.rank i.level ∧
      (baselineLevel (lastSegment "secret") = Level.critical → i.level = Level.critical) :=
  C8_removed_escalation "secret" (Value.vstr "x")
